import Mathlib

/-!
Shallow embedding of the load balancer in cmd/load-balancer/main.go
(a trace of Rob Pike's "Concurrency is not Parallelism" load balancer),
together with the parts of Go's container/heap package that the program
invokes on its `Pool` (heap.Push, heap.Pop, heap.Remove and the sift
helpers `up` and `down`).

Modelling choices:
* A `Worker` is the record {id, pending, idx}.  `id` is a creation-order
  surrogate for Go's pointer identity; the `work` channel carries no pool
  state and is not modelled.  `pending` and `idx` are Go `int`s, modelled
  as `Int` (Pool.Pop stores -1 into `idx`).
* The pool `[]*Worker` is a `List Worker`; the dispatcher goroutine owns
  it exclusively, so plain state passing is faithful.
* Go runtime panics (index out of range in `Pool.Swap`, popping an empty
  pool) are modelled by `Option`: `none` is a panic.
* `up` and `down` from container/heap are loops on an index that strictly
  decreases (towards the root) resp. strictly increases below the bound
  `n`; they are written with an explicit fuel argument that the wrappers
  instantiate with a bound large enough that the fuel never runs out
  (`j+1` for `up`, `n` for `down`), so both are structurally recursive
  and computable.
-/

/-- Worker struct from main.go: heap index `idx`, pending request count
`pending`; `id` stands for the pointer identity of the Go object. -/
structure Worker where
  id : Nat
  pending : Int
  idx : Int
deriving Repr, DecidableEq

instance : Inhabited Worker := ⟨⟨0, 0, 0⟩⟩

/-- Go's `type Pool []*Worker`. -/
abbrev Pool := List Worker

/-- Read the pool at index `i` (in-range at every call site that models
a Go read; out of range gives the default worker). -/
def pget (p : Pool) (i : Nat) : Worker := p.getD i default

/-- Write the pool at index `i` (no-op out of range, like `List.set`). -/
def pset (p : Pool) (i : Nat) (w : Worker) : Pool := p.set i w

/-- Pending count at index `i`. -/
def key (p : Pool) (i : Nat) : Int := (pget p i).pending

/-- Go's `func (p Pool) Less(i, j int) bool: return p[i].pending < p[j].pending` -/
def less (p : Pool) (i j : Nat) : Bool := key p i < key p j

/-- Go's field write `w.idx = z`. -/
def setIdx (w : Worker) (z : Int) : Worker := { w with idx := z }

/-- Go's `func (p *Pool) Swap(i, j int)`: swap the two slots, then store the
new positions into the `idx` fields, exactly in the order main.go does. -/
def pswap (p : Pool) (i j : Nat) : Pool :=
  let a := pset (pset p i (pget p j)) j (pget p i)
  let b := pset a i (setIdx (pget a i) (Int.ofNat i))
  pset b j (setIdx (pget b j) (Int.ofNat j))

/-- Go's `func (p *Pool) Push(x interface)`: set `idx` to the old length and
append. -/
def poolPush (p : Pool) (w : Worker) : Pool :=
  p ++ [setIdx w (Int.ofNat p.length)]

/-- Go's `func (p *Pool) Pop() interface`: take the last element, store -1
into its `idx` ("for safety"), shrink by one.  Call sites guarantee the
pool is nonempty (Go would panic otherwise). -/
def poolPop (p : Pool) : Worker × Pool :=
  (setIdx (pget p (p.length - 1)) (-1), p.take (p.length - 1))

/-- Index of the smaller child among `j1` and `j1+1` (container/heap's
`down` body: `if j2 := j1 + 1; j2 < n && h.Less(j2, j1) { j = j2 }`). -/
def minChild (p : Pool) (j1 n : Nat) : Nat :=
  if j1 + 1 < n ∧ less p (j1 + 1) j1 then j1 + 1 else j1

/-- container/heap `func up(h Interface, j int)`, with fuel.  The loop:
`i := (j-1)/2; if i == j || !h.Less(j, i) break; h.Swap(i, j); j = i`. -/
def upGo : Nat → Pool → Nat → Pool
  | 0, p, _ => p
  | fuel + 1, p, j =>
    let i := (j - 1) / 2
    if i = j then p
    else if less p j i then upGo fuel (pswap p i j) i
    else p

/-- Wrapper giving `up` enough fuel: the loop index strictly decreases, so `j + 1`
iterations always suffice. -/
def up (p : Pool) (j : Nat) : Pool := upGo (j + 1) p j

/-- container/heap `func down(h Interface, i0, n int) bool`, with fuel;
returns the pool and the final index `i` (Go returns `i > i0`).  The
loop: `j1 := 2*i+1; if j1 >= n break; j := minChild; if !h.Less(j, i)
break; h.Swap(i, j); i = j`. -/
def downGo : Nat → Pool → Nat → Nat → Pool × Nat
  | 0, p, i, _ => (p, i)
  | fuel + 1, p, i, n =>
    if 2 * i + 1 < n then
      let j := minChild p (2 * i + 1) n
      if less p j i then downGo fuel (pswap p i j) j n else (p, i)
    else (p, i)

/-- Wrapper giving `down` enough fuel: the index strictly increases and stays
below `n`, so `n` iterations always suffice. -/
def down (p : Pool) (i n : Nat) : Pool × Nat := downGo n p i n

/-- container/heap `func Push(h Interface, x any) { h.Push(x); up(h, h.Len()-1) }`. -/
def heapPush (p : Pool) (w : Worker) : Pool :=
  let q := poolPush p w
  up q (q.length - 1)

/-- container/heap `func Pop(h Interface) any`: `n := h.Len() - 1;
h.Swap(0, n); down(h, 0, n); return h.Pop()`.  On an empty pool
`h.Swap(0, -1)` panics: `none`. -/
def heapPop (p : Pool) : Option (Worker × Pool) :=
  if p.length = 0 then none
  else
    let n := p.length - 1
    let q := pswap p 0 n
    let r := (down q 0 n).1
    some (poolPop r)

/-- container/heap `func Remove(h Interface, i int) any`: `n := h.Len()-1;
if n != i { h.Swap(i, n); if !down(h, i, n) { up(h, i) } }; return
h.Pop()`.  The Go code panics exactly when `i` is outside `[0, len)`
(Swap's bounds check, or Pop on an empty pool when `i = n = -1`). -/
def heapRemove (p : Pool) (i : Int) : Option (Worker × Pool) :=
  if 0 ≤ i ∧ i < (p.length : Int) then
    let k := i.toNat
    let n := p.length - 1
    if k = n then some (poolPop p)
    else
      let q := pswap p k n
      let dr := down q k n
      let r := if k < dr.2 then dr.1 else up dr.1 k
      some (poolPop r)
  else none

/-- Go's `const workerSize = 10`. -/
def workerSize : Nat := 10

/-- Go's `newLoadBalancer`: push `workerSize` zero-valued workers (Go zero
value: pending 0, idx 0) with `heap.Push`; `id` records creation order.
The `work` channel capacity (`reqClientCount`) carries no pool state. -/
def initPool : Pool :=
  (List.range workerSize).foldl
    (fun p k => heapPush p { id := k, pending := 0, idx := 0 }) []

/-- Go's `func (b *LoadBalancer) dispatch(req Request)`: `w := heap.Pop(...)`;
send the request on `w.work` (not modelled); `w.pending++`;
`heap.Push(&b.pool, w)`.  Returns the chosen worker (as popped) and the
new pool; `none` is the pop-from-empty panic. -/
def dispatch (p : Pool) : Option (Worker × Pool) :=
  match heapPop p with
  | none => none
  | some (w, q) => some (w, heapPush q { w with pending := w.pending + 1 })

/-- Go's `func (b *LoadBalancer) completed(w *Worker)`: `w.pending--;
heap.Remove(&b.pool, w.idx); heap.Push(&b.pool, w)`.  The `*Worker`
received on the done channel is encoded by its position `j` in the pool
(positions out of range encode no worker and return `none`).  Go
discards the element `heap.Remove` returns and pushes the pointer `w`
itself; the value pushed here is therefore the referenced worker with
its decremented pending count: `heap.Remove` never changes any worker's
`id` or `pending` (its swaps only relocate elements and rewrite `idx`
fields) and `Pool.Push` overwrites `idx` before appending, so the
worker's `idx` at push time is irrelevant.  When the recorded position
is stale but in range this duplicates the referenced worker and drops
the worker stored at the recorded position, exactly as the Go code
does; the aliasing between the two copies during the sift-up of that
final push is outside this value model. -/
def completed (p : Pool) (j : Nat) : Option Pool :=
  if j < p.length then
    let w := pget p j
    let w1 := { w with pending := w.pending - 1 }
    let p1 := pset p j w1
    match heapRemove p1 w1.idx with
    | none => none
    | some (_, p2) => some (heapPush p2 w1)
  else none

/-- Pointer-identity-and-count view of one worker: what the pool holds,
ignoring heap positions. -/
def strip (w : Worker) : Nat × Int := (w.id, w.pending)

/-- Multiset of (identity, pending) pairs of the pool (see `strip`). -/
def wkeys (p : Pool) : Multiset (Nat × Int) :=
  (p.map strip : List (Nat × Int))

/-- Multiset of pending counts of the pool. -/
def pkeys (p : Pool) : Multiset Int := (p.map Worker.pending : List Int)

/-- Sum of pending counts over the pool (as in `print`). -/
def psum (p : Pool) : Int := (p.map Worker.pending).sum

/-- One parent/child pair of the min-heap property at child index `k`. -/
def pairLE (p : Pool) (k : Nat) : Prop := key p ((k - 1) / 2) ≤ key p k

/-- Min-heap property on the first `n` slots. -/
def heapUpTo (p : Pool) (n : Nat) : Prop :=
  ∀ k, k < n → 0 < k → pairLE p k

/-- Min-heap property of the whole pool: every non-root element is ≥ its
parent. -/
def heapProp (p : Pool) : Prop := heapUpTo p p.length

/-- Position-field invariant: every worker's stored heap index equals
its true index in the pool. -/
def idxOk (p : Pool) : Prop :=
  ∀ k, k < p.length → (pget p k).idx = (k : Int)

instance decPairLE (p : Pool) (k : Nat) : Decidable (pairLE p k) :=
  inferInstanceAs (Decidable (key p ((k - 1) / 2) ≤ key p k))

instance decHeapUpTo (p : Pool) (n : Nat) : Decidable (heapUpTo p n) :=
  inferInstanceAs (Decidable (∀ k, k < n → 0 < k → pairLE p k))

instance decHeapProp (p : Pool) : Decidable (heapProp p) :=
  inferInstanceAs (Decidable (heapUpTo p p.length))

instance decIdxOk (p : Pool) : Decidable (idxOk p) :=
  inferInstanceAs (Decidable (∀ k, k < p.length → (pget p k).idx = (k : Int)))

/-- Reachable states of the dispatcher loop, counting processed events:
`ReachN p d c` means the pool `p` arises from the initial pool after `d`
dispatch events and `c` completion events.  A completion event carries a
pointer to some worker currently in the pool, encoded by its position. -/
inductive ReachN : Pool → Nat → Nat → Prop where
  | init : ReachN initPool 0 0
  | disp {p d c w q} : ReachN p d c → dispatch p = some (w, q) →
      ReachN q (d + 1) c
  | comp {p d c j q} : ReachN p d c → j < p.length →
      completed p j = some q → ReachN q d (c + 1)

/-- Reachable states, numbers of events forgotten. -/
def Reach (p : Pool) : Prop := ∃ d c, ReachN p d c

/-- Reachable states under well-matched completions: a completion event
is only delivered for a worker with at least one dispatched-but-
uncompleted task, i.e. (by the glossary) positive pending count. -/
inductive ReachV : Pool → Prop where
  | init : ReachV initPool
  | disp {p w q} : ReachV p → dispatch p = some (w, q) → ReachV q
  | comp {p j q} : ReachV p → j < p.length → 1 ≤ (pget p j).pending →
      completed p j = some q → ReachV q

/-- Dispatch `m` tasks sequentially (no intervening completions). -/
def iterDispatch : Nat → Pool → Option Pool
  | 0, p => some p
  | m + 1, p =>
    match iterDispatch m p with
    | none => none
    | some q =>
      match dispatch q with
      | none => none
      | some (_, r) => some r

/-! ### Generic lemmas about list reads, writes and counts -/

theorem gset_eq {α : Type} [Inhabited α] {l : List α} {i : Nat}
    (h : i < l.length) (x : α) : (l.set i x).getD i default = x := by
  induction l generalizing i with
  | nil => simp at h
  | cons a t ih =>
    cases i with
    | zero => simp
    | succ n => simpa using ih (by simpa using h)

theorem gset_ne {α : Type} [Inhabited α] {l : List α} {i k : Nat}
    (h : i ≠ k) (x : α) : (l.set i x).getD k default = l.getD k default := by
  induction l generalizing i k with
  | nil => simp
  | cons a t ih =>
    cases i with
    | zero =>
      cases k with
      | zero => exact absurd rfl h
      | succ m => simp
    | succ n =>
      cases k with
      | zero => simp
      | succ m => simpa using ih (by omega)

theorem gtake {α : Type} [Inhabited α] {l : List α} {k m : Nat}
    (h : k < m) : (l.take m).getD k default = l.getD k default := by
  induction l generalizing k m with
  | nil => simp
  | cons a t ih =>
    cases m with
    | zero => omega
    | succ m' =>
      cases k with
      | zero => simp
      | succ k' => simpa using ih (by omega)

theorem gappend_lt {α : Type} [Inhabited α] {l : List α} {k : Nat}
    (h : k < l.length) (x : α) : (l ++ [x]).getD k default = l.getD k default := by
  induction l generalizing k with
  | nil => simp at h
  | cons a t ih =>
    cases k with
    | zero => simp
    | succ k' => simpa using ih (by simpa using h)

theorem gappend_len {α : Type} [Inhabited α] (l : List α) (x : α) :
    (l ++ [x]).getD l.length default = x := by
  induction l with
  | nil => simp
  | cons a t ih => simp [ih]

theorem gdefault {α : Type} [Inhabited α] {l : List α} {k : Nat}
    (h : l.length ≤ k) : l.getD k default = default := by
  induction l generalizing k with
  | nil => simp
  | cons a t ih =>
    cases k with
    | zero => simp at h
    | succ k' => simpa using ih (by simpa using h)

theorem gmem {α : Type} [Inhabited α] {l : List α} {k : Nat}
    (h : k < l.length) : l.getD k default ∈ l := by
  induction l generalizing k with
  | nil => simp at h
  | cons a t ih =>
    cases k with
    | zero => simp
    | succ k' => exact List.mem_cons_of_mem a (ih (by simpa using h))

theorem gmem_ex {α : Type} [Inhabited α] {l : List α} {w : α}
    (h : w ∈ l) : ∃ k, k < l.length ∧ l.getD k default = w := by
  induction l with
  | nil => simp at h
  | cons a t ih =>
    rcases List.mem_cons.mp h with h1 | h2
    · exact ⟨0, by simp, h1.symm⟩
    · obtain ⟨k, hk, he⟩ := ih h2
      exact ⟨k + 1, by simpa using hk, by simpa using he⟩

theorem gmap {α β : Type} [Inhabited α] [Inhabited β] (f : α → β)
    (hf : f default = default) (l : List α) (k : Nat) :
    (l.map f).getD k default = f (l.getD k default) := by
  induction l generalizing k with
  | nil => simp [hf]
  | cons a t ih =>
    cases k with
    | zero => simp
    | succ k' => simpa using ih k'

theorem gmap_set {α β : Type} (f : α → β) (l : List α) (i : Nat) (x : α) :
    (l.set i x).map f = (l.map f).set i (f x) := by
  induction l generalizing i with
  | nil => simp
  | cons a t ih =>
    cases i with
    | zero => simp
    | succ n => simp [ih n]

theorem gset_self {α : Type} [Inhabited α] {l : List α} {i : Nat}
    (h : i < l.length) : l.set i (l.getD i default) = l := by
  induction l generalizing i with
  | nil => simp
  | cons a t ih =>
    cases i with
    | zero => simp
    | succ n => simpa using ih (by simpa using h)

theorem gcount_set {α : Type} [Inhabited α] [DecidableEq α] {l : List α} {i : Nat}
    (h : i < l.length) (x : α) (a : α) :
    (l.set i x).count a + (if l.getD i default = a then 1 else 0) =
      l.count a + (if x = a then 1 else 0) := by
  induction l generalizing i with
  | nil => simp at h
  | cons b t ih =>
    cases i with
    | zero =>
      simp only [List.set_cons_zero, List.getD_cons_zero, List.count_cons,
        beq_iff_eq]
      omega
    | succ n =>
      have hh := ih (by simpa using h : n < t.length)
      simp only [List.set_cons_succ, List.getD_cons_succ, List.count_cons,
        beq_iff_eq]
      omega

/-- Swapping two in-range entries (each also rewritten by any
value-preserving function of position) is a permutation. -/
theorem gswap_perm {α : Type} [Inhabited α] [DecidableEq α] {l : List α} {i j : Nat}
    (hi : i < l.length) (hj : j < l.length) :
    ((l.set i (l.getD j default)).set j (l.getD i default)).Perm l := by
  rw [List.perm_iff_count]
  intro a
  have h1 : i < (l.set i (l.getD j default)).length := by
    simpa [List.length_set] using hi
  have hj1 : j < (l.set i (l.getD j default)).length := by
    simpa [List.length_set] using hj
  have c2 := gcount_set (l := l.set i (l.getD j default)) (i := j) hj1
    (l.getD i default) a
  have c1 := gcount_set (l := l) (i := i) hi (l.getD j default) a
  by_cases hij : i = j
  · subst hij
    rw [gset_eq hi] at c2
    omega
  · rw [gset_ne hij] at c2
    omega


/-! ### Lemmas about the Pool primitives -/

@[simp] theorem setIdx_idx (w : Worker) (z : Int) : (setIdx w z).idx = z := rfl

@[simp] theorem setIdx_id (w : Worker) (z : Int) : (setIdx w z).id = w.id := rfl

@[simp] theorem setIdx_pending (w : Worker) (z : Int) :
    (setIdx w z).pending = w.pending := rfl

@[simp] theorem setIdx_setIdx (w : Worker) (a b : Int) :
    setIdx (setIdx w a) b = setIdx w b := rfl

@[simp] theorem strip_setIdx (w : Worker) (z : Int) :
    strip (setIdx w z) = strip w := rfl

theorem length_pset (p : Pool) (i : Nat) (w : Worker) :
    (pset p i w).length = p.length := List.length_set ..

theorem pget_pset_self {p : Pool} {i : Nat} (h : i < p.length) (w : Worker) :
    pget (pset p i w) i = w := gset_eq h w

theorem pget_pset_ne {p : Pool} {i k : Nat} (h : i ≠ k) (w : Worker) :
    pget (pset p i w) k = pget p k := gset_ne h w

theorem length_pswap (p : Pool) (i j : Nat) :
    (pswap p i j).length = p.length := by
  simp [pswap, pset, List.length_set]

theorem pget_pswap_other {p : Pool} {i j k : Nat} (hki : k ≠ i) (hkj : k ≠ j) :
    pget (pswap p i j) k = pget p k := by
  simp only [pswap]
  rw [pget_pset_ne (Ne.symm hkj), pget_pset_ne (Ne.symm hki),
    pget_pset_ne (Ne.symm hkj), pget_pset_ne (Ne.symm hki)]

theorem pget_pswap_fst {p : Pool} {i j : Nat} (hi : i < p.length)
    (hj : j < p.length) :
    pget (pswap p i j) i = setIdx (pget p j) (Int.ofNat i) := by
  simp only [pswap]
  by_cases hij : i = j
  · subst hij
    rw [pget_pset_self (by simp [length_pset, hi]),
      pget_pset_self (by simp [length_pset, hi]),
      pget_pset_self (by simp [length_pset, hi])]
    simp
  · rw [pget_pset_ne (Ne.symm hij), pget_pset_self (by simp [length_pset, hi]),
      pget_pset_ne (Ne.symm hij), pget_pset_self hi]

theorem pget_pswap_snd {p : Pool} {i j : Nat} (hi : i < p.length)
    (hj : j < p.length) :
    pget (pswap p i j) j = setIdx (pget p i) (Int.ofNat j) := by
  simp only [pswap]
  by_cases hij : i = j
  · subst hij
    rw [pget_pset_self (by simp [length_pset, hi]),
      pget_pset_self (by simp [length_pset, hi]),
      pget_pset_self (by simp [length_pset, hi])]
    simp
  · rw [pget_pset_self (by simp [length_pset, hj]),
      pget_pset_ne hij, pget_pset_self (by simp [length_pset, hj])]

theorem key_pswap_fst {p : Pool} {i j : Nat} (hi : i < p.length)
    (hj : j < p.length) : key (pswap p i j) i = key p j := by
  simp [key, pget_pswap_fst hi hj]

theorem key_pswap_snd {p : Pool} {i j : Nat} (hi : i < p.length)
    (hj : j < p.length) : key (pswap p i j) j = key p i := by
  simp [key, pget_pswap_snd hi hj]

theorem key_pswap_other {p : Pool} {i j k : Nat} (hki : k ≠ i) (hkj : k ≠ j) :
    key (pswap p i j) k = key p k := by
  simp [key, pget_pswap_other hki hkj]

theorem idxOk_pswap {p : Pool} {i j : Nat} (hi : i < p.length)
    (hj : j < p.length) (h : idxOk p) : idxOk (pswap p i j) := by
  intro k hk
  rw [length_pswap] at hk
  by_cases hki : k = i
  · subst hki
    rw [pget_pswap_fst hi hj]
    simp
  · by_cases hkj : k = j
    · subst hkj
      rw [pget_pswap_snd hi hj]
      simp
    · rw [pget_pswap_other hki hkj]
      exact h k hk

theorem gset_perm {α : Type} [Inhabited α] [DecidableEq α] {l : List α}
    {i : Nat} (h : i < l.length) (x : α) :
    (l.getD i default :: l.set i x).Perm (x :: l) := by
  rw [List.perm_iff_count]
  intro a
  have hc := gcount_set h x a
  simp only [List.count_cons, beq_iff_eq]
  omega

theorem map_pset (p : Pool) (i : Nat) (w : Worker) :
    (pset p i w).map strip = (p.map strip).set i (strip w) :=
  gmap_set strip p i w

theorem strip_pget_map (p : Pool) (i : Nat) :
    (p.map strip).getD i default = strip (pget p i) := gmap strip rfl p i

theorem wkeys_pset {p : Pool} {i : Nat} (h : i < p.length) (w : Worker) :
    wkeys (pset p i w) + {strip (pget p i)} = wkeys p + {strip w} := by
  have hperm : ((p.map strip).getD i default ::
      (p.map strip).set i (strip w)).Perm (strip w :: p.map strip) :=
    gset_perm (by simpa using h) (strip w)
  rw [strip_pget_map] at hperm
  have hco : (strip (pget p i) ::ₘ (wkeys (pset p i w)) : Multiset (Nat × Int)) =
      strip w ::ₘ wkeys p := by
    simp only [wkeys, map_pset, ← Multiset.cons_coe]
    exact Multiset.coe_eq_coe.mpr hperm
  calc wkeys (pset p i w) + {strip (pget p i)}
      = strip (pget p i) ::ₘ wkeys (pset p i w) := by
        rw [add_comm, Multiset.singleton_add]
    _ = strip w ::ₘ wkeys p := hco
    _ = wkeys p + {strip w} := by rw [add_comm, Multiset.singleton_add]

theorem gset4 {α : Type} (l : List α) (i j : Nat) (x y : α) :
    (((l.set i y).set j x).set i y).set j x = (l.set i y).set j x := by
  by_cases hij : i = j
  · subst hij
    rw [List.set_set, List.set_set, List.set_set]
  · rw [List.set_comm x y _ (fun hji => hij hji.symm), List.set_set,
      List.set_set]

theorem wkeys_pswap {p : Pool} {i j : Nat} (hi : i < p.length)
    (hj : j < p.length) : wkeys (pswap p i j) = wkeys p := by
  have hu : strip (pget (pset (pset p i (pget p j)) j (pget p i)) i) =
      strip (pget p j) := by
    by_cases hij : i = j
    · subst hij
      rw [pget_pset_self (by simp [length_pset, hi])]
    · rw [pget_pset_ne (Ne.symm hij), pget_pset_self hi]
  have hv : strip (pget (pset (pset (pset p i (pget p j)) j (pget p i)) i
      (setIdx (pget (pset (pset p i (pget p j)) j (pget p i)) i)
        (Int.ofNat i))) j) = strip (pget p i) := by
    by_cases hij : i = j
    · subst hij
      rw [pget_pset_self (by simp [length_pset, hi])]
      rw [strip_setIdx, hu]
    · rw [pget_pset_ne hij, pget_pset_self (by simp [length_pset, hj])]
  have hmap : (pswap p i j).map strip =
      ((p.map strip).set i (strip (pget p j))).set j (strip (pget p i)) := by
    simp only [pswap, map_pset, strip_setIdx, hu, hv]
    exact gset4 (p.map strip) i j (strip (pget p i)) (strip (pget p j))
  have hperm : (((p.map strip).set i ((p.map strip).getD j default)).set j
      ((p.map strip).getD i default)).Perm (p.map strip) :=
    gswap_perm (by simpa using hi) (by simpa using hj)
  rw [strip_pget_map, strip_pget_map] at hperm
  simp only [wkeys, hmap]
  exact Multiset.coe_eq_coe.mpr hperm

/-! ### Sift-up -/

theorem upGo_succ_stop {fuel : Nat} {p : Pool} {j : Nat}
    (h1 : (j - 1) / 2 = j) : upGo (fuel + 1) p j = p := by
  simp [upGo, h1]

theorem upGo_succ_swap {fuel : Nat} {p : Pool} {j : Nat}
    (h1 : (j - 1) / 2 ≠ j) (h2 : key p j < key p ((j - 1) / 2)) :
    upGo (fuel + 1) p j = upGo fuel (pswap p ((j - 1) / 2) j) ((j - 1) / 2) := by
  simp [upGo, less, h1, h2]

theorem upGo_succ_done {fuel : Nat} {p : Pool} {j : Nat}
    (h1 : (j - 1) / 2 ≠ j) (h2 : ¬ key p j < key p ((j - 1) / 2)) :
    upGo (fuel + 1) p j = p := by
  simp [upGo, less, h1, h2]

theorem length_upGo (fuel : Nat) : ∀ p j, (upGo fuel p j).length = p.length := by
  induction fuel with
  | zero => intro p j; rfl
  | succ f ih =>
    intro p j
    by_cases h1 : (j - 1) / 2 = j
    · rw [upGo_succ_stop h1]
    · by_cases h2 : key p j < key p ((j - 1) / 2)
      · rw [upGo_succ_swap h1 h2, ih, length_pswap]
      · rw [upGo_succ_done h1 h2]

theorem wkeys_upGo (fuel : Nat) : ∀ p j, j < p.length →
    wkeys (upGo fuel p j) = wkeys p := by
  induction fuel with
  | zero => intro p j _; rfl
  | succ f ih =>
    intro p j hj
    by_cases h1 : (j - 1) / 2 = j
    · rw [upGo_succ_stop h1]
    · by_cases h2 : key p j < key p ((j - 1) / 2)
      · have hij : (j - 1) / 2 < j := by omega
        rw [upGo_succ_swap h1 h2, ih _ _ (by rw [length_pswap]; omega),
          wkeys_pswap (by omega) hj]
      · rw [upGo_succ_done h1 h2]

theorem pget_upGo_gt (fuel : Nat) : ∀ p j k, j < k →
    pget (upGo fuel p j) k = pget p k := by
  induction fuel with
  | zero => intro p j k _; rfl
  | succ f ih =>
    intro p j k hk
    by_cases h1 : (j - 1) / 2 = j
    · rw [upGo_succ_stop h1]
    · by_cases h2 : key p j < key p ((j - 1) / 2)
      · have hij : (j - 1) / 2 < j := by omega
        rw [upGo_succ_swap h1 h2, ih _ _ _ (by omega),
          pget_pswap_other (by omega) (by omega)]
      · rw [upGo_succ_done h1 h2]

theorem idxOk_upGo (fuel : Nat) : ∀ p j, j < p.length → idxOk p →
    idxOk (upGo fuel p j) := by
  induction fuel with
  | zero => intro p j _ h; exact h
  | succ f ih =>
    intro p j hj h
    by_cases h1 : (j - 1) / 2 = j
    · rw [upGo_succ_stop h1]; exact h
    · by_cases h2 : key p j < key p ((j - 1) / 2)
      · have hij : (j - 1) / 2 < j := by omega
        rw [upGo_succ_swap h1 h2]
        exact ih _ _ (by rw [length_pswap]; omega)
          (idxOk_pswap (by omega) hj h)
      · rw [upGo_succ_done h1 h2]; exact h

/-- Correctness of container/heap's sift-up: if every parent/child pair
below `n` holds except possibly the one at `j`, and the children of `j`
are already at least the parent of `j`, then after `up` the whole prefix
is a heap. -/
theorem upGo_heap (fuel : Nat) : ∀ p j n, j < fuel → j < n → n ≤ p.length →
    (∀ k, k < n → 0 < k → k ≠ j → pairLE p k) →
    (∀ k, k < n → (k - 1) / 2 = j → 0 < j → key p ((j - 1) / 2) ≤ key p k) →
    heapUpTo (upGo fuel p j) n := by
  induction fuel with
  | zero => intro p j n hfu; omega
  | succ f ih =>
    intro p j n hfu hjn hlen hA hB
    by_cases h1 : (j - 1) / 2 = j
    · rw [upGo_succ_stop h1]
      intro k hk hk0
      exact hA k hk hk0 (by omega)
    · have hj0 : 0 < j := by omega
      have hij : (j - 1) / 2 < j := by omega
      have hilen : (j - 1) / 2 < p.length := by omega
      have hjlen : j < p.length := by omega
      by_cases h2 : key p j < key p ((j - 1) / 2)
      · rw [upGo_succ_swap h1 h2]
        apply ih _ _ n (by omega) (by omega) (by rw [length_pswap]; exact hlen)
        · -- pairs away from the new position (j-1)/2 still hold
          intro k hk hk0 hki
          by_cases hkj : k = j
          · subst hkj
            unfold pairLE
            rw [key_pswap_fst hilen hjlen, key_pswap_snd hilen hjlen]
            omega
          · by_cases hpki : (k - 1) / 2 = (j - 1) / 2
            · unfold pairLE
              rw [hpki, key_pswap_fst hilen hjlen, key_pswap_other hki hkj]
              have h3 := hA k hk hk0 hkj
              unfold pairLE at h3
              rw [hpki] at h3
              omega
            · by_cases hpkj : (k - 1) / 2 = j
              · unfold pairLE
                rw [hpkj, key_pswap_snd hilen hjlen, key_pswap_other hki hkj]
                exact hB k hk hpkj hj0
              · unfold pairLE
                rw [key_pswap_other hpki hpkj, key_pswap_other hki hkj]
                exact hA k hk hk0 hkj
        · -- grandchild condition at the new position
          intro k hk hpki hi0
          have hk0 : 0 < k := by omega
          have hki : k ≠ (j - 1) / 2 := by omega
          have hpi1 : (((j - 1) / 2) - 1) / 2 ≠ (j - 1) / 2 := by omega
          have hpi2 : (((j - 1) / 2) - 1) / 2 ≠ j := by omega
          have h4 := hA ((j - 1) / 2) (by omega) hi0 (by omega)
          unfold pairLE at h4
          rw [key_pswap_other hpi1 hpi2]
          by_cases hkj : k = j
          · subst hkj
            rw [key_pswap_snd hilen hjlen]
            exact h4
          · rw [key_pswap_other hki hkj]
            have h5 := hA k hk hk0 hkj
            unfold pairLE at h5
            rw [hpki] at h5
            omega
      · rw [upGo_succ_done h1 h2]
        intro k hk hk0
        by_cases hkj : k = j
        · subst hkj
          unfold pairLE
          omega
        · exact hA k hk hk0 hkj

/-! ### Sift-down -/

theorem minChild_eq (p : Pool) (j1 n : Nat) :
    minChild p j1 n =
      if j1 + 1 < n ∧ key p (j1 + 1) < key p j1 then j1 + 1 else j1 := by
  simp [minChild, less]

theorem minChild_lt {p : Pool} {j1 n : Nat} (h : j1 < n) :
    minChild p j1 n < n := by
  rw [minChild_eq]
  split <;> omega

theorem minChild_cases (p : Pool) (j1 n : Nat) :
    minChild p j1 n = j1 ∨ minChild p j1 n = j1 + 1 := by
  rw [minChild_eq]
  split <;> omega

theorem minChild_ge (p : Pool) (j1 n : Nat) : j1 ≤ minChild p j1 n := by
  rw [minChild_eq]
  split <;> omega

theorem minChild_le_left (p : Pool) (j1 n : Nat) :
    key p (minChild p j1 n) ≤ key p j1 := by
  rw [minChild_eq]
  split_ifs with h
  · exact le_of_lt h.2
  · exact le_refl _

theorem minChild_le_right {p : Pool} {j1 n : Nat} (h : j1 + 1 < n) :
    key p (minChild p j1 n) ≤ key p (j1 + 1) := by
  rw [minChild_eq]
  split_ifs with hc
  · exact le_refl _
  · rw [Classical.not_and_iff_or_not_not] at hc
    rcases hc with hc | hc
    · omega
    · omega

/-- The smaller-child index is ≤ every child of `i` present below `n`. -/
theorem minChild_min {p : Pool} {i n k : Nat} (h1 : 2 * i + 1 < n)
    (hpk : (k - 1) / 2 = i) (h0 : 0 < k) (hk : k < n) :
    key p (minChild p (2 * i + 1) n) ≤ key p k := by
  have hk12 : k = 2 * i + 1 ∨ k = 2 * i + 2 := by omega
  rcases hk12 with hk1 | hk2
  · rw [hk1]
    exact minChild_le_left p (2 * i + 1) n
  · have h2 : 2 * i + 1 + 1 < n := by omega
    have := minChild_le_right (p := p) h2
    have e : 2 * i + 1 + 1 = 2 * i + 2 := by omega
    rw [e] at this
    rw [hk2]
    exact this

theorem downGo_succ_leaf {fuel : Nat} {p : Pool} {i n : Nat}
    (h : ¬ 2 * i + 1 < n) : downGo (fuel + 1) p i n = (p, i) := by
  simp [downGo, h]

theorem downGo_succ_stop {fuel : Nat} {p : Pool} {i n : Nat}
    (h : 2 * i + 1 < n)
    (h2 : ¬ key p (minChild p (2 * i + 1) n) < key p i) :
    downGo (fuel + 1) p i n = (p, i) := by
  simp [downGo, less, h, h2]

theorem downGo_succ_swap {fuel : Nat} {p : Pool} {i n : Nat}
    (h : 2 * i + 1 < n)
    (h2 : key p (minChild p (2 * i + 1) n) < key p i) :
    downGo (fuel + 1) p i n =
      downGo fuel (pswap p i (minChild p (2 * i + 1) n))
        (minChild p (2 * i + 1) n) n := by
  simp [downGo, less, h, h2]

theorem downGo_ge (fuel : Nat) : ∀ p i n, i ≤ (downGo fuel p i n).2 := by
  induction fuel with
  | zero => intro p i n; exact le_refl i
  | succ f ih =>
    intro p i n
    by_cases hc : 2 * i + 1 < n
    · by_cases h2 : key p (minChild p (2 * i + 1) n) < key p i
      · rw [downGo_succ_swap hc h2]
        have h3 := ih (pswap p i (minChild p (2 * i + 1) n))
          (minChild p (2 * i + 1) n) n
        have h4 := minChild_ge p (2 * i + 1) n
        omega
      · rw [downGo_succ_stop hc h2]
    · rw [downGo_succ_leaf hc]

theorem length_downGo (fuel : Nat) : ∀ p i n,
    ((downGo fuel p i n).1).length = p.length := by
  induction fuel with
  | zero => intro p i n; rfl
  | succ f ih =>
    intro p i n
    by_cases hc : 2 * i + 1 < n
    · by_cases h2 : key p (minChild p (2 * i + 1) n) < key p i
      · rw [downGo_succ_swap hc h2, ih, length_pswap]
      · rw [downGo_succ_stop hc h2]
    · rw [downGo_succ_leaf hc]

theorem wkeys_downGo (fuel : Nat) : ∀ p i n, n ≤ p.length →
    wkeys (downGo fuel p i n).1 = wkeys p := by
  induction fuel with
  | zero => intro p i n _; rfl
  | succ f ih =>
    intro p i n hlen
    by_cases hc : 2 * i + 1 < n
    · by_cases h2 : key p (minChild p (2 * i + 1) n) < key p i
      · have hjn := minChild_lt (p := p) (show 2 * i + 1 < n from hc)
        rw [downGo_succ_swap hc h2, ih _ _ _ (by rw [length_pswap]; exact hlen),
          wkeys_pswap (by omega) (by omega)]
      · rw [downGo_succ_stop hc h2]
    · rw [downGo_succ_leaf hc]

theorem pget_downGo_ge (fuel : Nat) : ∀ p i n k, n ≤ k →
    pget (downGo fuel p i n).1 k = pget p k := by
  induction fuel with
  | zero => intro p i n k _; rfl
  | succ f ih =>
    intro p i n k hk
    by_cases hc : 2 * i + 1 < n
    · by_cases h2 : key p (minChild p (2 * i + 1) n) < key p i
      · have hjn := minChild_lt (p := p) (show 2 * i + 1 < n from hc)
        rw [downGo_succ_swap hc h2, ih _ _ _ _ hk,
          pget_pswap_other (by omega) (by omega)]
      · rw [downGo_succ_stop hc h2]
    · rw [downGo_succ_leaf hc]

theorem idxOk_downGo (fuel : Nat) : ∀ p i n, n ≤ p.length → idxOk p →
    idxOk (downGo fuel p i n).1 := by
  induction fuel with
  | zero => intro p i n _ h; exact h
  | succ f ih =>
    intro p i n hlen h
    by_cases hc : 2 * i + 1 < n
    · by_cases h2 : key p (minChild p (2 * i + 1) n) < key p i
      · have hjn := minChild_lt (p := p) (show 2 * i + 1 < n from hc)
        rw [downGo_succ_swap hc h2]
        exact ih _ _ _ (by rw [length_pswap]; exact hlen)
          (idxOk_pswap (by omega) (by omega) h)
      · rw [downGo_succ_stop hc h2]; exact h
    · rw [downGo_succ_leaf hc]; exact h

/-- Correctness of container/heap's sift-down within the prefix `n`:
starting from a pool whose only possible violations involve position `i`
(the pair at `i` itself and the pairs of its children), `down` returns a
pool in which every pair holds except possibly the one at the final
index, together with the grandchild condition there; if the index moved,
the prefix is a full heap, and if it did not move the pool is unchanged. -/
theorem downGo_spec (fuel : Nat) : ∀ p i n, n ≤ fuel + i → n ≤ p.length →
    (∀ k, k < n → 0 < k → k ≠ i → (k - 1) / 2 ≠ i → pairLE p k) →
    (∀ k, k < n → (k - 1) / 2 = i → 0 < i → key p ((i - 1) / 2) ≤ key p k) →
    (∀ k, k < n → 0 < k → k ≠ (downGo fuel p i n).2 →
      pairLE (downGo fuel p i n).1 k) ∧
    (∀ k, k < n → (k - 1) / 2 = (downGo fuel p i n).2 →
      0 < (downGo fuel p i n).2 →
      key (downGo fuel p i n).1 (((downGo fuel p i n).2 - 1) / 2) ≤
        key (downGo fuel p i n).1 k) ∧
    ((downGo fuel p i n).2 = i → (downGo fuel p i n).1 = p) ∧
    ((downGo fuel p i n).2 ≠ i → heapUpTo (downGo fuel p i n).1 n) := by
  induction fuel with
  | zero =>
    intro p i n hfu hlen hA hB
    simp only [downGo]
    refine ⟨?_, ?_, by simp, by simp⟩
    · intro k hk hk0 hki
      exact hA k hk hk0 hki (by omega)
    · intro k hk hpk h0
      omega
  | succ f ih =>
    intro p i n hfu hlen hA hB
    by_cases hc : 2 * i + 1 < n
    · have hjn : minChild p (2 * i + 1) n < n := minChild_lt hc
      have hj1 : 2 * i + 1 ≤ minChild p (2 * i + 1) n := minChild_ge ..
      have hj12 := minChild_cases p (2 * i + 1) n
      by_cases h2 : key p (minChild p (2 * i + 1) n) < key p i
      · -- swap with the smaller child and continue
        rw [downGo_succ_swap hc h2]
        have hilen : i < p.length := by omega
        have hjlen : minChild p (2 * i + 1) n < p.length := by omega
        have hpj : (minChild p (2 * i + 1) n - 1) / 2 = i := by omega
        have hA2 : ∀ k, k < n → 0 < k → k ≠ minChild p (2 * i + 1) n →
            (k - 1) / 2 ≠ minChild p (2 * i + 1) n →
            pairLE (pswap p i (minChild p (2 * i + 1) n)) k := by
          intro k hk hk0 hkj hpkj
          by_cases hki : k = i
          · subst hki
            unfold pairLE
            rw [key_pswap_other (show (k - 1) / 2 ≠ k by omega)
              (show (k - 1) / 2 ≠ minChild p (2 * k + 1) n by omega),
              key_pswap_fst hilen hjlen]
            exact hB (minChild p (2 * k + 1) n) hjn hpj hk0
          · by_cases hpki : (k - 1) / 2 = i
            · unfold pairLE
              rw [hpki, key_pswap_fst hilen hjlen,
                key_pswap_other hki hkj]
              exact le_trans (minChild_min hc hpki hk0 hk) (le_refl _)
            · unfold pairLE
              rw [key_pswap_other hpki hpkj, key_pswap_other hki hkj]
              exact hA k hk hk0 hki hpki
        have hB2 : ∀ k, k < n → (k - 1) / 2 = minChild p (2 * i + 1) n →
            0 < minChild p (2 * i + 1) n →
            key (pswap p i (minChild p (2 * i + 1) n))
              ((minChild p (2 * i + 1) n - 1) / 2) ≤
            key (pswap p i (minChild p (2 * i + 1) n)) k := by
          intro k hk hpk h0
          rw [hpj, key_pswap_fst hilen hjlen,
            key_pswap_other (show k ≠ i by omega)
              (show k ≠ minChild p (2 * i + 1) n by omega)]
          have h3 := hA k hk (by omega) (by omega) (by omega)
          unfold pairLE at h3
          rw [hpk] at h3
          exact h3
        obtain ⟨P1, P2, P3, P4⟩ := ih (pswap p i (minChild p (2 * i + 1) n))
          (minChild p (2 * i + 1) n) n (by omega)
          (by rw [length_pswap]; exact hlen) hA2 hB2
        have hge := downGo_ge f (pswap p i (minChild p (2 * i + 1) n))
          (minChild p (2 * i + 1) n) n
        refine ⟨P1, P2, ?_, ?_⟩
        · intro h3
          omega
        · intro _
          by_cases hfj : (downGo f (pswap p i (minChild p (2 * i + 1) n))
              (minChild p (2 * i + 1) n) n).2 = minChild p (2 * i + 1) n
          · intro k hk hk0
            by_cases hkj : k = minChild p (2 * i + 1) n
            · rw [P3 hfj]
              subst hkj
              unfold pairLE
              rw [hpj, key_pswap_fst hilen hjlen, key_pswap_snd hilen hjlen]
              omega
            · exact P1 k hk hk0 (by omega)
          · exact P4 hfj
      · -- smaller child not smaller: the loop stops here
        rw [downGo_succ_stop hc h2]
        dsimp only
        refine ⟨?_, ?_, fun _ => rfl, fun h3 => absurd rfl h3⟩
        · intro k hk hk0 hki
          by_cases hpki : (k - 1) / 2 = i
          · unfold pairLE
            rw [hpki]
            have h3 := minChild_min (p := p) hc hpki hk0 hk
            omega
          · exact hA k hk hk0 hki hpki
        · intro k hk hpk h0
          exact hB k hk hpk h0
    · -- no child below n: the loop stops immediately
      rw [downGo_succ_leaf hc]
      dsimp only
      refine ⟨?_, ?_, fun _ => rfl, fun h3 => absurd rfl h3⟩
      · intro k hk hk0 hki
        exact hA k hk hk0 hki (by omega)
      · intro k hk hpk h0
        omega

/-! ### Push, Pop, Remove -/

theorem pget_take {p : Pool} {k m : Nat} (h : k < m) :
    pget (p.take m) k = pget p k := gtake h

theorem pget_append_lt {p : Pool} {k : Nat} (h : k < p.length) (w : Worker) :
    pget (p ++ [w]) k = pget p k := gappend_lt h w

theorem pget_append_len (p : Pool) (w : Worker) :
    pget (p ++ [w]) p.length = w := gappend_len p w

theorem wkeys_cons (w : Worker) (t : Pool) :
    wkeys (w :: t) = strip w ::ₘ wkeys t := by
  simp [wkeys]

theorem wkeys_take {p : Pool} {n : Nat} (h : p.length = n + 1) :
    wkeys p = wkeys (p.take n) + {strip (pget p n)} := by
  induction p generalizing n with
  | nil => simp at h
  | cons w t ih =>
    cases n with
    | zero =>
      have ht : t = [] := List.length_eq_zero.mp (by simpa using h)
      subst ht
      simp [wkeys, pget]
    | succ m =>
      have ht : t.length = m + 1 := by simpa using h
      have e1 : pget (w :: t) (m + 1) = pget t m := by simp [pget]
      have e2 : (w :: t).take (m + 1) = w :: t.take m := by simp
      rw [e1, e2, wkeys_cons, wkeys_cons, ih ht,
        ← Multiset.singleton_add, ← Multiset.singleton_add]
      simp [add_comm, add_left_comm, add_assoc]

theorem wkeys_append (p : Pool) (w : Worker) :
    wkeys (p ++ [w]) = wkeys p + {strip w} := by
  rw [wkeys, wkeys, List.map_append]
  exact_mod_cast rfl

theorem idxOk_take {p : Pool} (n : Nat) (h : idxOk p) : idxOk (p.take n) := by
  intro k hk
  rw [List.length_take] at hk
  rw [pget_take (by omega)]
  exact h k (by omega)

theorem length_poolPush (p : Pool) (w : Worker) :
    (poolPush p w).length = p.length + 1 := by
  simp [poolPush]

theorem length_heapPush (p : Pool) (w : Worker) :
    (heapPush p w).length = p.length + 1 := by
  simp [heapPush, up, length_upGo, length_poolPush]

theorem wkeys_heapPush (p : Pool) (w : Worker) :
    wkeys (heapPush p w) = wkeys p + {strip w} := by
  have h1 : (poolPush p w).length = p.length + 1 := length_poolPush p w
  rw [heapPush, up, wkeys_upGo _ _ _ (by omega), poolPush, wkeys_append]
  simp

theorem idxOk_poolPush {p : Pool} (h : idxOk p) (w : Worker) :
    idxOk (poolPush p w) := by
  intro k hk
  rw [length_poolPush] at hk
  by_cases hkl : k < p.length
  · rw [poolPush, pget_append_lt hkl]
    exact h k hkl
  · have hke : k = p.length := by omega
    subst hke
    rw [poolPush, pget_append_len]
    simp

theorem idxOk_heapPush {p : Pool} (h : idxOk p) (w : Worker) :
    idxOk (heapPush p w) := by
  rw [heapPush, up]
  exact idxOk_upGo _ _ _ (by rw [length_poolPush]; omega) (idxOk_poolPush h w)

theorem heapProp_heapPush {p : Pool} (h : heapProp p) (w : Worker) :
    heapProp (heapPush p w) := by
  have hlen : (heapPush p w).length = p.length + 1 := length_heapPush p w
  rw [heapProp, hlen, heapPush, up, length_poolPush]
  have hq : (poolPush p w).length = p.length + 1 := length_poolPush p w
  apply upGo_heap (p.length + 1) (poolPush p w) p.length (p.length + 1)
    (by omega) (by omega) (by omega)
  · intro k hk hk0 hkj
    have hkl : k < p.length := by omega
    have e1 : pget (poolPush p w) k = pget p k := pget_append_lt hkl _
    have e2 : pget (poolPush p w) ((k - 1) / 2) = pget p ((k - 1) / 2) :=
      pget_append_lt (by omega) _
    unfold pairLE key
    rw [e1, e2]
    exact h k hkl hk0
  · intro k hk hpk hl0
    omega

/-- In a min-heap the root key is minimal. -/
theorem root_min {p : Pool} (h : heapProp p) :
    ∀ m, m < p.length → key p 0 ≤ key p m := by
  intro m
  induction m using Nat.strong_induction_on with
  | _ m ih =>
    intro hm
    rcases Nat.eq_zero_or_pos m with hm0 | hm0
    · subst hm0; exact le_refl _
    · have hp := h m hm hm0
      unfold pairLE at hp
      have hih := ih ((m - 1) / 2) (by omega) (by omega)
      omega

theorem heapPop_spec {p : Pool} (h0 : 0 < p.length) (hh : heapProp p) :
    heapPop p = some (setIdx (pget p 0) (-1),
        ((down (pswap p 0 (p.length - 1)) 0 (p.length - 1)).1).take
          (p.length - 1)) ∧
      (((down (pswap p 0 (p.length - 1)) 0 (p.length - 1)).1).take
          (p.length - 1)).length = p.length - 1 ∧
      heapProp (((down (pswap p 0 (p.length - 1)) 0 (p.length - 1)).1).take
          (p.length - 1)) ∧
      (idxOk p → idxOk (((down (pswap p 0 (p.length - 1)) 0
          (p.length - 1)).1).take (p.length - 1))) ∧
      wkeys p = wkeys (((down (pswap p 0 (p.length - 1)) 0
          (p.length - 1)).1).take (p.length - 1)) + {strip (pget p 0)} := by
  have hn : p.length - 1 < p.length := by omega
  have hsw : (pswap p 0 (p.length - 1)).length = p.length := length_pswap ..
  obtain ⟨P1, P2, P3, P4⟩ := downGo_spec (p.length - 1) (pswap p 0 (p.length - 1))
    0 (p.length - 1) (by omega) (by omega)
    (by
      intro k hk hk0 hki hpki
      unfold pairLE
      rw [key_pswap_other hki (by omega), key_pswap_other hpki (by omega)]
      exact hh k (by omega) hk0)
    (by intro k hk hpk hx; omega)
  have hdlen : ((down (pswap p 0 (p.length - 1)) 0 (p.length - 1)).1).length
      = p.length := by
    rw [down, length_downGo, hsw]
  have hheap : heapUpTo (down (pswap p 0 (p.length - 1)) 0 (p.length - 1)).1
      (p.length - 1) := by
    by_cases hf : (down (pswap p 0 (p.length - 1)) 0 (p.length - 1)).2 = 0
    · intro k hk hk0
      exact P1 k hk hk0 (by rw [down, hf] at *; omega)
    · exact P4 hf
  have hpn : pget (down (pswap p 0 (p.length - 1)) 0 (p.length - 1)).1
      (p.length - 1) = setIdx (pget p 0) (Int.ofNat (p.length - 1)) := by
    rw [down, pget_downGo_ge _ _ _ _ _ (le_refl _)]
    exact pget_pswap_snd h0 hn
  refine ⟨?_, ?_, ?_, ?_, ?_⟩
  · simp only [heapPop, poolPop]
    rw [if_neg (by omega), hdlen, hpn]
    simp
  · rw [List.length_take, hdlen]
    omega
  · intro k hk hk0
    rw [List.length_take, hdlen] at hk
    unfold pairLE key
    rw [pget_take (by omega), pget_take (by omega)]
    exact hheap k (by omega) hk0
  · intro hix
    exact idxOk_take _ (by
      rw [down]
      exact idxOk_downGo _ _ _ _ (by omega) (idxOk_pswap h0 hn hix))
  · rw [show wkeys p = wkeys (pswap p 0 (p.length - 1)) from
      (wkeys_pswap h0 hn).symm]
    rw [show wkeys (pswap p 0 (p.length - 1)) =
      wkeys (down (pswap p 0 (p.length - 1)) 0 (p.length - 1)).1 from
      (by rw [down]; exact (wkeys_downGo _ _ _ _ (by omega)).symm)]
    rw [wkeys_take (show ((down (pswap p 0 (p.length - 1)) 0
      (p.length - 1)).1).length = (p.length - 1) + 1 by rw [hdlen]; omega), hpn]
    simp

/-- Combined effect of `down(h, j, n)` followed by the conditional
`up(h, j)` that container/heap's `Remove` performs. -/
theorem heapFix_spec (p : Pool) (j n : Nat) (hjn : j < n) (hlen : n ≤ p.length)
    (hA : ∀ k, k < n → 0 < k → k ≠ j → (k - 1) / 2 ≠ j → pairLE p k)
    (hB : ∀ k, k < n → (k - 1) / 2 = j → 0 < j →
      key p ((j - 1) / 2) ≤ key p k) :
    heapUpTo (if j < (downGo n p j n).2 then (downGo n p j n).1
      else up (downGo n p j n).1 j) n ∧
    (if j < (downGo n p j n).2 then (downGo n p j n).1
      else up (downGo n p j n).1 j).length = p.length ∧
    wkeys (if j < (downGo n p j n).2 then (downGo n p j n).1
      else up (downGo n p j n).1 j) = wkeys p ∧
    (∀ k, n ≤ k → pget (if j < (downGo n p j n).2 then (downGo n p j n).1
      else up (downGo n p j n).1 j) k = pget p k) ∧
    (idxOk p → idxOk (if j < (downGo n p j n).2 then (downGo n p j n).1
      else up (downGo n p j n).1 j)) := by
  obtain ⟨P1, P2, P3, P4⟩ := downGo_spec n p j n (by omega) hlen hA hB
  have hge := downGo_ge n p j n
  by_cases hlt : j < (downGo n p j n).2
  · rw [if_pos hlt]
    exact ⟨P4 (by omega), by rw [length_downGo],
      wkeys_downGo _ _ _ _ hlen,
      fun k hk => pget_downGo_ge _ _ _ _ _ hk,
      fun hix => idxOk_downGo _ _ _ _ hlen hix⟩
  · have hf : (downGo n p j n).2 = j := by omega
    have hdp : (downGo n p j n).1 = p := P3 hf
    rw [if_neg hlt, hdp]
    rw [hf, hdp] at P1 P2
    refine ⟨?_, by rw [up, length_upGo], ?_, ?_, ?_⟩
    · rw [up]
      exact upGo_heap (j + 1) p j n (by omega) hjn hlen
        (fun k hk hk0 hkj => P1 k hk hk0 hkj)
        (fun k hk hpk h0 => P2 k hk hpk h0)
    · rw [up]
      exact wkeys_upGo _ _ _ (by omega)
    · intro k hk
      rw [up]
      exact pget_upGo_gt _ _ _ _ (by omega)
    · intro hix
      rw [up]
      exact idxOk_upGo _ _ _ (by omega) hix

theorem heapRemove_spec {p : Pool} {j : Nat} (hj : j < p.length)
    (hA : ∀ k, k < p.length → 0 < k → k ≠ j → (k - 1) / 2 ≠ j → pairLE p k)
    (hB : ∀ k, k < p.length → (k - 1) / 2 = j → 0 < j →
      key p ((j - 1) / 2) ≤ key p k) :
    ∃ q, heapRemove p (j : Int) = some (setIdx (pget p j) (-1), q) ∧
      q.length = p.length - 1 ∧ heapProp q ∧ (idxOk p → idxOk q) ∧
      wkeys p = wkeys q + {strip (pget p j)} := by
  have hg : 0 ≤ (j : Int) ∧ (j : Int) < (p.length : Int) :=
    ⟨Int.natCast_nonneg j, by exact_mod_cast hj⟩
  by_cases hjn : j = p.length - 1
  · refine ⟨p.take (p.length - 1), ?_, ?_, ?_, ?_, ?_⟩
    · simp only [heapRemove, poolPop]
      rw [if_pos hg]
      simp only [Int.toNat_natCast]
      rw [if_pos hjn, ← hjn]
    · rw [List.length_take]
      omega
    · intro k hk hk0
      rw [List.length_take] at hk
      unfold pairLE key
      rw [pget_take (by omega), pget_take (by omega)]
      exact hA k (by omega) hk0 (by omega) (by omega)
    · intro hix
      exact idxOk_take _ hix
    · rw [hjn]
      exact wkeys_take (by omega)
  · have hjlt : j < p.length - 1 := by omega
    have hnlt : p.length - 1 < p.length := by omega
    have hswlen : (pswap p j (p.length - 1)).length = p.length :=
      length_pswap ..
    obtain ⟨F1, F2, F3, F4, F5⟩ := heapFix_spec (pswap p j (p.length - 1)) j
      (p.length - 1) hjlt (by rw [hswlen]; omega)
      (by
        intro k hk hk0 hki hpki
        unfold pairLE
        rw [key_pswap_other hki (by omega), key_pswap_other hpki (by omega)]
        exact hA k (by omega) hk0 hki hpki)
      (by
        intro k hk hpk h0
        have hk0 : 0 < k := by omega
        rw [key_pswap_other (show (j - 1) / 2 ≠ j by omega)
            (show (j - 1) / 2 ≠ p.length - 1 by omega),
          key_pswap_other (show k ≠ j by omega)
            (show k ≠ p.length - 1 by omega)]
        exact hB k (by omega) hpk h0)
    have hRlen : (if j < (downGo (p.length - 1) (pswap p j (p.length - 1)) j
        (p.length - 1)).2 then
          (downGo (p.length - 1) (pswap p j (p.length - 1)) j
            (p.length - 1)).1
        else up (downGo (p.length - 1) (pswap p j (p.length - 1)) j
            (p.length - 1)).1 j).length = p.length := by
      rw [F2, hswlen]
    have hRn : pget (if j < (downGo (p.length - 1) (pswap p j (p.length - 1)) j
        (p.length - 1)).2 then
          (downGo (p.length - 1) (pswap p j (p.length - 1)) j
            (p.length - 1)).1
        else up (downGo (p.length - 1) (pswap p j (p.length - 1)) j
            (p.length - 1)).1 j) (p.length - 1) =
        setIdx (pget p j) (Int.ofNat (p.length - 1)) := by
      rw [F4 (p.length - 1) (le_refl _)]
      exact pget_pswap_snd hj hnlt
    refine ⟨(if j < (downGo (p.length - 1) (pswap p j (p.length - 1)) j
        (p.length - 1)).2 then
          (downGo (p.length - 1) (pswap p j (p.length - 1)) j
            (p.length - 1)).1
        else up (downGo (p.length - 1) (pswap p j (p.length - 1)) j
            (p.length - 1)).1 j).take (p.length - 1), ?_, ?_, ?_, ?_, ?_⟩
    · simp only [heapRemove, poolPop, down]
      rw [if_pos hg]
      simp only [Int.toNat_natCast]
      rw [if_neg hjn]
      rw [hRlen, hRn]
      simp
    · rw [List.length_take, hRlen]
      omega
    · intro k hk hk0
      rw [List.length_take, hRlen] at hk
      unfold pairLE key
      rw [pget_take (by omega), pget_take (by omega)]
      exact F1 k (by omega) hk0
    · intro hix
      exact idxOk_take _ (F5 (idxOk_pswap hj hnlt hix))
    · rw [show wkeys p = wkeys (pswap p j (p.length - 1)) from
        (wkeys_pswap hj hnlt).symm, ← F3,
        wkeys_take (show (if j < (downGo (p.length - 1)
          (pswap p j (p.length - 1)) j (p.length - 1)).2 then
            (downGo (p.length - 1) (pswap p j (p.length - 1)) j
              (p.length - 1)).1
          else up (downGo (p.length - 1) (pswap p j (p.length - 1)) j
              (p.length - 1)).1 j).length = (p.length - 1) + 1 by
          rw [hRlen]; omega), hRn]
      simp

/-! ### The two dispatcher transitions -/

theorem dispatch_spec {p : Pool} (h0 : 0 < p.length) (hh : heapProp p)
    {w : Worker} {q : Pool} (he : dispatch p = some (w, q)) :
    w = setIdx (pget p 0) (-1) ∧ q.length = p.length ∧ heapProp q ∧
      (idxOk p → idxOk q) ∧
      wkeys q + {strip w} = wkeys p + {(w.id, w.pending + 1)} ∧
      (∀ m, m < p.length → w.pending ≤ key p m) := by
  obtain ⟨e, hlen, hheap, hidx, hkeys⟩ := heapPop_spec h0 hh
  rw [dispatch, e] at he
  have hw : w = setIdx (pget p 0) (-1) := by
    injection he with he1
    injection he1 with hw hq
    exact hw.symm
  have hq : q = heapPush (((down (pswap p 0 (p.length - 1)) 0
      (p.length - 1)).1).take (p.length - 1))
      { setIdx (pget p 0) (-1) with
        pending := (setIdx (pget p 0) (-1)).pending + 1 } := by
    injection he with he1
    injection he1 with hw1 hq1
    exact hq1.symm
  refine ⟨hw, ?_, ?_, ?_, ?_, ?_⟩
  · rw [hq, length_heapPush, hlen]
    omega
  · rw [hq]
    exact heapProp_heapPush hheap _
  · intro hix
    rw [hq]
    exact idxOk_heapPush (hidx hix) _
  · rw [hq, wkeys_heapPush, hw]
    rw [show wkeys p = wkeys (((down (pswap p 0 (p.length - 1)) 0
      (p.length - 1)).1).take (p.length - 1)) + {strip (pget p 0)} from hkeys]
    have hs : strip { setIdx (pget p 0) (-1) with
        pending := (setIdx (pget p 0) (-1)).pending + 1 } =
        ((setIdx (pget p 0) (-1)).id, (setIdx (pget p 0) (-1)).pending + 1) :=
      rfl
    rw [hs]
    simp [add_comm, add_left_comm, add_assoc]
  · intro m hm
    rw [hw]
    have := root_min hh m hm
    simpa [key] using this

theorem completed_spec {p : Pool} {j : Nat} (hj : j < p.length)
    (hh : heapProp p) (hix : idxOk p) {q : Pool}
    (he : completed p j = some q) :
    q.length = p.length ∧ heapProp q ∧ idxOk q ∧
      wkeys q + {strip (pget p j)} =
        wkeys p + {((pget p j).id, (pget p j).pending - 1)} := by
  have hlen1 : (pset p j ⟨(pget p j).id, (pget p j).pending - 1,
      (j : Int)⟩).length = p.length := length_pset ..
  have hp1get : ∀ k, k ≠ j →
      pget (pset p j ⟨(pget p j).id, (pget p j).pending - 1,
        (j : Int)⟩) k = pget p k :=
    fun k hk => pget_pset_ne (Ne.symm hk) _
  have hp1getj : pget (pset p j ⟨(pget p j).id, (pget p j).pending - 1,
      (j : Int)⟩) j =
      ⟨(pget p j).id, (pget p j).pending - 1, (j : Int)⟩ :=
    pget_pset_self hj _
  obtain ⟨q2, hrm, hq2len, hq2heap, hq2idx, hq2keys⟩ :=
    heapRemove_spec (p := pset p j ⟨(pget p j).id, (pget p j).pending - 1,
      (j : Int)⟩) (j := j) (by omega)
      (by
        intro k hk hk0 hki hpki
        unfold pairLE key
        rw [hp1get k hki, hp1get _ hpki]
        exact hh k (by omega) hk0)
      (by
        intro k hk hpk h0
        have hk0 : 0 < k := by omega
        rw [key, key, hp1get _ (show (j - 1) / 2 ≠ j by omega),
          hp1get _ (show k ≠ j by omega)]
        have h1 := hh j (by omega) h0
        have h2 := hh k (by omega) hk0
        unfold pairLE at h1 h2
        rw [hpk] at h2
        unfold key at h1 h2
        omega)
  have he2 : (match heapRemove (pset p j ⟨(pget p j).id,
      (pget p j).pending - 1, (j : Int)⟩) (j : Int) with
      | none => none
      | some (_, p2) => some (heapPush p2 ⟨(pget p j).id,
          (pget p j).pending - 1, (j : Int)⟩)) = some q := by
    rw [completed, if_pos hj] at he
    dsimp only at he
    rw [hix j hj] at he
    exact he
  rw [hrm] at he2
  dsimp only at he2
  have hq : q = heapPush q2 ⟨(pget p j).id,
      (pget p j).pending - 1, (j : Int)⟩ := by
    injection he2 with he3
    exact he3.symm
  have hstrip : strip (⟨(pget p j).id, (pget p j).pending - 1,
      (j : Int)⟩ : Worker) =
      ((pget p j).id, (pget p j).pending - 1) := rfl
  refine ⟨?_, ?_, ?_, ?_⟩
  · rw [hq, length_heapPush, hq2len, hlen1]
    omega
  · rw [hq]
    exact heapProp_heapPush hq2heap _
  · rw [hq]
    refine idxOk_heapPush (hq2idx ?_) _
    intro k hk
    rw [hlen1] at hk
    by_cases hkj : k = j
    · subst hkj
      rw [hp1getj]
    · rw [hp1get k hkj]
      exact hix k hk
  · have hps := wkeys_pset hj (⟨(pget p j).id, (pget p j).pending - 1,
      (j : Int)⟩ : Worker)
    rw [hq2keys, hp1getj] at hps
    have hsw1 : strip (⟨(pget p j).id, (pget p j).pending - 1,
        (j : Int)⟩ : Worker) =
        ((pget p j).id, (pget p j).pending - 1) := rfl
    rw [hsw1] at hps
    rw [hq, wkeys_heapPush, hstrip, ← hps]

/-! ### Reachable-state invariants -/

theorem psum_wkeys (p : Pool) :
    psum p = (Multiset.map Prod.snd (wkeys p)).sum := by
  rw [psum, wkeys]
  rw [Multiset.map_coe, Multiset.sum_coe, List.map_map]
  rfl

theorem psum_shift {q p : Pool} {a b : Nat × Int}
    (h : wkeys q + {a} = wkeys p + {b}) : psum q + a.2 = psum p + b.2 := by
  have h2 := congrArg (fun s : Multiset (Nat × Int) => (s.map Prod.snd).sum) h
  simp only [Multiset.map_add, Multiset.sum_add, Multiset.map_singleton,
    Multiset.sum_singleton] at h2
  rw [psum_wkeys, psum_wkeys]
  omega

theorem pget_mem {p : Pool} {k : Nat} (h : k < p.length) : pget p k ∈ p :=
  gmem h

theorem wkeys_mem_of_mem {p : Pool} {w : Worker} (h : w ∈ p) :
    strip w ∈ wkeys p := by
  rw [wkeys]
  exact Multiset.mem_coe.mpr (List.mem_map_of_mem strip h)

theorem wkeys_mem_ex {p : Pool} {a : Nat × Int} (h : a ∈ wkeys p) :
    ∃ w, w ∈ p ∧ strip w = a := by
  rw [wkeys] at h
  simpa using Multiset.mem_coe.mp h

theorem reachN_inv {p : Pool} {d c : Nat} (h : ReachN p d c) :
    heapProp p ∧ idxOk p ∧ p.length = workerSize ∧
      psum p = (d : Int) - (c : Int) := by
  induction h with
  | init => exact ⟨by decide, by decide, by decide, by decide⟩
  | @disp p d c w q hr he ih =>
    obtain ⟨hh, hix, hlen, hsum⟩ := ih
    have h0 : 0 < p.length := by rw [hlen]; decide
    obtain ⟨hw, hqlen, hqheap, hqidx, hkeys, hmin⟩ := dispatch_spec h0 hh he
    have hps := psum_shift hkeys
    have hs2 : (strip w).2 = w.pending := rfl
    refine ⟨hqheap, hqidx hix, by omega, ?_⟩
    rw [hs2] at hps
    push_cast
    omega
  | @comp p d c j q hr hj he ih =>
    obtain ⟨hh, hix, hlen, hsum⟩ := ih
    obtain ⟨hqlen, hqheap, hqidx, hkeys⟩ := completed_spec hj hh hix he
    have hps := psum_shift hkeys
    have hs2 : (strip (pget p j)).2 = (pget p j).pending := rfl
    refine ⟨hqheap, hqidx, by omega, ?_⟩
    rw [hs2] at hps
    push_cast
    omega

theorem reachV_inv {p : Pool} (h : ReachV p) :
    heapProp p ∧ idxOk p ∧ p.length = workerSize ∧
      ∀ w, w ∈ p → 0 ≤ w.pending := by
  induction h with
  | init => exact ⟨by decide, by decide, by decide, by decide⟩
  | @disp p w q hr he ih =>
    obtain ⟨hh, hix, hlen, hnn⟩ := ih
    have h0 : 0 < p.length := by rw [hlen]; decide
    obtain ⟨hw, hqlen, hqheap, hqidx, hkeys, hmin⟩ := dispatch_spec h0 hh he
    refine ⟨hqheap, hqidx hix, by omega, ?_⟩
    intro v hv
    have hmem : strip v ∈ wkeys q + {strip w} :=
      Multiset.mem_add.mpr (Or.inl (wkeys_mem_of_mem hv))
    rw [hkeys] at hmem
    rcases Multiset.mem_add.mp hmem with hmem | hmem
    · obtain ⟨u, hu, hsu⟩ := wkeys_mem_ex hmem
      have h1 := hnn u hu
      have h2 : v.pending = u.pending := by
        have := congrArg Prod.snd hsu
        simpa [strip] using this.symm
      omega
    · have h2 : v.pending = w.pending + 1 := by
        have := Multiset.mem_singleton.mp hmem
        have := congrArg Prod.snd this
        simpa [strip] using this
      have h3 : w.pending = (pget p 0).pending := by rw [hw]; rfl
      have h4 := hnn (pget p 0) (pget_mem h0)
      omega
  | @comp p j q hr hj hpend he ih =>
    obtain ⟨hh, hix, hlen, hnn⟩ := ih
    obtain ⟨hqlen, hqheap, hqidx, hkeys⟩ := completed_spec hj hh hix he
    refine ⟨hqheap, hqidx, by omega, ?_⟩
    intro v hv
    have hmem : strip v ∈ wkeys q + {strip (pget p j)} :=
      Multiset.mem_add.mpr (Or.inl (wkeys_mem_of_mem hv))
    rw [hkeys] at hmem
    rcases Multiset.mem_add.mp hmem with hmem | hmem
    · obtain ⟨u, hu, hsu⟩ := wkeys_mem_ex hmem
      have h1 := hnn u hu
      have h2 : v.pending = u.pending := by
        have := congrArg Prod.snd hsu
        simpa [strip] using this.symm
      omega
    · have h2 : v.pending = (pget p j).pending - 1 := by
        have := Multiset.mem_singleton.mp hmem
        have := congrArg Prod.snd this
        simpa [strip] using this
      omega

/-! ### Sequential dispatching over a fresh pool -/

theorem pkeys_wkeys (p : Pool) : pkeys p = Multiset.map Prod.snd (wkeys p) := by
  rw [pkeys, wkeys, Multiset.map_coe, List.map_map]
  rfl

theorem pkeys_shift {q p : Pool} {a b : Nat × Int}
    (h : wkeys q + {a} = wkeys p + {b}) : pkeys q + {a.2} = pkeys p + {b.2} := by
  have h2 := congrArg (Multiset.map Prod.snd) h
  simp only [Multiset.map_add, Multiset.map_singleton] at h2
  rw [pkeys_wkeys, pkeys_wkeys]
  exact h2

theorem key_mem_pkeys {p : Pool} {k : Nat} (h : k < p.length) :
    key p k ∈ pkeys p := by
  rw [pkeys]
  exact Multiset.mem_coe.mpr (List.mem_map_of_mem Worker.pending (gmem h))

theorem pkeys_mem_ex {p : Pool} {a : Int} (h : a ∈ pkeys p) :
    ∃ k, k < p.length ∧ key p k = a := by
  rw [pkeys] at h
  obtain ⟨w, hw, hwa⟩ := List.mem_map.mp (Multiset.mem_coe.mp h)
  obtain ⟨k, hk, hke⟩ := gmem_ex hw
  exact ⟨k, hk, by rw [key, pget, hke, hwa]⟩

theorem pkeys_const {p : Pool} {c : Int} (h : ∀ w ∈ p, w.pending = c) :
    pkeys p = Multiset.replicate p.length c := by
  refine Multiset.eq_replicate.mpr ⟨by simp [pkeys], ?_⟩
  intro b hb
  rw [pkeys] at hb
  obtain ⟨w, hw, hwb⟩ := List.mem_map.mp (Multiset.mem_coe.mp hb)
  rw [← hwb]
  exact h w hw

theorem dispatch_total {p : Pool} (h0 : 0 < p.length) :
    ∃ w r, dispatch p = some (w, r) := by
  rw [dispatch, heapPop]
  rw [if_neg (by omega)]
  exact ⟨_, _, rfl⟩

theorem c6_aux : ∀ (m N : Nat) (p0 : Pool), p0.length = N → heapProp p0 →
    idxOk p0 → (∀ w ∈ p0, w.pending = 0) → m ≤ N →
    ∃ q, iterDispatch m p0 = some q ∧ q.length = N ∧ heapProp q ∧ idxOk q ∧
      pkeys q = Multiset.replicate m 1 + Multiset.replicate (N - m) 0 := by
  intro m
  induction m with
  | zero =>
    intro N p0 hlen hh hix hz _
    refine ⟨p0, rfl, hlen, hh, hix, ?_⟩
    rw [pkeys_const hz, hlen]
    simp
  | succ m ih =>
    intro N p0 hlen hh hix hz hm1
    obtain ⟨q, hit, hqlen, hqh, hqix, hqk⟩ := ih N p0 hlen hh hix hz (by omega)
    have h0 : 0 < q.length := by omega
    obtain ⟨w, r, hd⟩ := dispatch_total h0
    obtain ⟨hw, hrlen, hrh, hrix, hrkeys, hrmin⟩ := dispatch_spec h0 hqh hd
    have hwk : w.pending = key q 0 := by rw [hw]; rfl
    have hw0 : w.pending = 0 := by
      have hmem := key_mem_pkeys h0
      rw [hqk] at hmem
      have hge : 0 ≤ key q 0 := by
        rcases Multiset.mem_add.mp hmem with hm | hm
        · rw [Multiset.eq_of_mem_replicate hm]
          omega
        · rw [Multiset.eq_of_mem_replicate hm]
      have hzero : (0 : Int) ∈ pkeys q := by
        rw [hqk]
        refine Multiset.mem_add.mpr (Or.inr ?_)
        exact Multiset.mem_replicate.mpr ⟨by omega, rfl⟩
      obtain ⟨k0, hk0, hkey0⟩ := pkeys_mem_ex hzero
      have := hrmin k0 hk0
      omega
    have hshift := pkeys_shift hrkeys
    have hs2 : (strip w).2 = w.pending := rfl
    rw [hs2, hw0] at hshift
    have hrk : pkeys r = Multiset.replicate (m + 1) 1 +
        Multiset.replicate (N - (m + 1)) 0 := by
      have hsplit : Multiset.replicate m 1 + Multiset.replicate (N - m) 0 +
          ({(0 : Int) + 1} : Multiset Int) =
          Multiset.replicate (m + 1) 1 + Multiset.replicate (N - (m + 1)) 0 +
            ({(0 : Int)} : Multiset Int) := by
        rw [show N - m = (N - (m + 1)) + 1 by omega, Multiset.replicate_succ,
          Multiset.replicate_succ, ← Multiset.singleton_add,
          ← Multiset.singleton_add]
        have e01 : (0 : Int) + 1 = 1 := by omega
        rw [e01]
        simp [add_comm, add_left_comm, add_assoc]
      rw [hqk] at hshift
      rw [hsplit] at hshift
      exact add_right_cancel hshift
    refine ⟨r, ?_, by omega, hrh, hrix hqix, hrk⟩
    rw [iterDispatch, hit]
    dsimp only
    rw [hd]

/-! ### Auxiliary position-tracking lemmas for Pop and Remove -/

theorem heapPop_idx : ∀ (p : Pool) (w : Worker) (q : Pool), idxOk p →
    heapPop p = some (w, q) → idxOk q := by
  intro p w q hix he
  have h0 : ¬ p.length = 0 := by
    intro h
    rw [heapPop, if_pos h] at he
    exact Option.noConfusion he
  rw [heapPop, if_neg h0] at he
  dsimp only at he
  have hq : q = ((down (pswap p 0 (p.length - 1)) 0 (p.length - 1)).1).take
      (((down (pswap p 0 (p.length - 1)) 0 (p.length - 1)).1).length - 1) := by
    have := congrArg (fun o : Option (Worker × Pool) =>
      Option.map Prod.snd o) he
    simpa [poolPop] using this.symm
  rw [hq, down]
  exact idxOk_take _ (idxOk_downGo _ _ _ _ (by rw [length_pswap]; omega)
    (idxOk_pswap (by omega) (by omega) hix))

theorem heapRemove_idx : ∀ (p : Pool) (i : Int) (w : Worker) (q : Pool),
    idxOk p → heapRemove p i = some (w, q) → idxOk q := by
  intro p i w q hix he
  by_cases hg : 0 ≤ i ∧ i < (p.length : Int)
  · rw [heapRemove, if_pos hg] at he
    dsimp only at he
    have hlt : i.toNat < p.length := by omega
    have h0 : 0 < p.length := by omega
    by_cases hn : i.toNat = p.length - 1
    · rw [if_pos hn] at he
      have hq : q = p.take (p.length - 1) := by
        have := congrArg (fun o : Option (Worker × Pool) =>
          Option.map Prod.snd o) he
        simpa [poolPop] using this.symm
      rw [hq]
      exact idxOk_take _ hix
    · rw [if_neg hn] at he
      have hq : q = ((if i.toNat < (down (pswap p i.toNat (p.length - 1))
          i.toNat (p.length - 1)).2 then
            (down (pswap p i.toNat (p.length - 1)) i.toNat (p.length - 1)).1
          else up (down (pswap p i.toNat (p.length - 1)) i.toNat
            (p.length - 1)).1 i.toNat)).take
          ((if i.toNat < (down (pswap p i.toNat (p.length - 1)) i.toNat
            (p.length - 1)).2 then
            (down (pswap p i.toNat (p.length - 1)) i.toNat (p.length - 1)).1
          else up (down (pswap p i.toNat (p.length - 1)) i.toNat
            (p.length - 1)).1 i.toNat).length - 1) := by
        have := congrArg (fun o : Option (Worker × Pool) =>
          Option.map Prod.snd o) he
        simpa [poolPop] using this.symm
      have hsw : idxOk (pswap p i.toNat (p.length - 1)) :=
        idxOk_pswap hlt (by omega) hix
      have hswlen : (pswap p i.toNat (p.length - 1)).length = p.length :=
        length_pswap ..
      rw [hq]
      by_cases hlt2 : i.toNat < (down (pswap p i.toNat (p.length - 1)) i.toNat
          (p.length - 1)).2
      · rw [if_pos hlt2, down]
        exact idxOk_take _ (idxOk_downGo _ _ _ _ (by rw [hswlen]; omega) hsw)
      · rw [if_neg hlt2, down, up]
        refine idxOk_take _ (idxOk_upGo _ _ _ ?_ (idxOk_downGo _ _ _ _
          (by rw [hswlen]; omega) hsw))
        rw [length_downGo, hswlen]
        omega
  · rw [heapRemove, if_neg hg] at he
    exact Option.noConfusion he

/-! ### The claims -/

/-- C1: for every sequence of dispatch and completion events starting
from the initial pool, after each event the pool satisfies the min-heap
property on pending counts (every non-root element is ≥ its parent);
both transitions restore the heap property before they return. -/
theorem c1_heap_invariant_reachable : ∀ p : Pool, Reach p → heapProp p := by
  intro p hp
  obtain ⟨d, c, hr⟩ := hp
  exact (reachN_inv hr).1

theorem c1_witness : heapProp initPool :=
  c1_heap_invariant_reachable initPool ⟨0, 0, ReachN.init⟩

/-- C2: dispatching from a non-empty pool satisfying the heap invariant
assigns the task to a worker whose pending count is minimal over the
pool, and the new pool holds the same workers except that exactly that
worker's pending count grew by one (it was re-inserted). -/
theorem c2_dispatch_least_loaded : ∀ (p : Pool) (w : Worker) (q : Pool),
    0 < p.length → heapProp p → dispatch p = some (w, q) →
    (∀ m, m < p.length → w.pending ≤ (pget p m).pending) ∧
    wkeys q + {(w.id, w.pending)} = wkeys p + {(w.id, w.pending + 1)} := by
  intro p w q h0 hh he
  obtain ⟨hw, hqlen, hqheap, hqidx, hkeys, hmin⟩ := dispatch_spec h0 hh he
  exact ⟨fun m hm => hmin m hm, hkeys⟩

theorem c2_witness :
    (∀ m, m < ([⟨0, 0, 0⟩, ⟨1, 2, 1⟩] : Pool).length →
      (⟨0, 0, -1⟩ : Worker).pending ≤
        (pget [⟨0, 0, 0⟩, ⟨1, 2, 1⟩] m).pending) ∧
    wkeys [⟨0, 1, 0⟩, ⟨1, 2, 1⟩] +
        {((⟨0, 0, -1⟩ : Worker).id, (⟨0, 0, -1⟩ : Worker).pending)} =
      wkeys [⟨0, 0, 0⟩, ⟨1, 2, 1⟩] +
        {((⟨0, 0, -1⟩ : Worker).id, (⟨0, 0, -1⟩ : Worker).pending + 1)} :=
  c2_dispatch_least_loaded [⟨0, 0, 0⟩, ⟨1, 2, 1⟩] ⟨0, 0, -1⟩
    [⟨0, 1, 0⟩, ⟨1, 2, 1⟩] (by decide) (by decide) (by decide)

/-- C3: in every reachable pool state each worker's stored heap position
equals its true index (so `pool[w.idx] == w`), and each structural
operation — Push, Pop, Remove, and the Swap performed by the sift
routines — preserves correctness of the position field for all workers
remaining in the pool. -/
theorem c3_position_tracking :
    (∀ p : Pool, Reach p → ∀ k, k < p.length →
      (pget p k).idx = (k : Int) ∧
      pget p ((pget p k).idx.toNat) = pget p k) ∧
    (∀ (p : Pool) (w : Worker), idxOk p → idxOk (heapPush p w)) ∧
    (∀ (p : Pool) (w : Worker) (q : Pool), idxOk p →
      heapPop p = some (w, q) → idxOk q) ∧
    (∀ (p : Pool) (i : Int) (w : Worker) (q : Pool), idxOk p →
      heapRemove p i = some (w, q) → idxOk q) ∧
    (∀ (p : Pool) (i j : Nat), i < p.length → j < p.length → idxOk p →
      idxOk (pswap p i j)) := by
  refine ⟨?_, ?_, ?_, ?_, ?_⟩
  · intro p hp k hk
    obtain ⟨d, c, hr⟩ := hp
    have hix := (reachN_inv hr).2.1
    have h1 := hix k hk
    refine ⟨h1, ?_⟩
    rw [h1]
    simp
  · intro p w hix
    exact idxOk_heapPush hix w
  · intro p w q hix he
    exact heapPop_idx p w q hix he
  · intro p i w q hix he
    exact heapRemove_idx p i w q hix he
  · intro p i j hi hj hix
    exact idxOk_pswap hi hj hix

theorem c3_witness :
    ((pget initPool 3).idx = ((3 : Nat) : Int) ∧
      pget initPool ((pget initPool 3).idx.toNat) = pget initPool 3) ∧
    idxOk (heapPush [⟨5, 2, 0⟩] ⟨7, 1, 0⟩) ∧
    idxOk ([] : Pool) ∧
    idxOk (pswap [⟨0, 3, 0⟩, ⟨1, 1, 1⟩] 0 1) := by
  have h := c3_position_tracking
  exact ⟨h.1 initPool ⟨0, 0, ReachN.init⟩ 3 (by decide),
    h.2.1 [⟨5, 2, 0⟩] ⟨7, 1, 0⟩ (by decide),
    h.2.2.1 [⟨0, 0, 0⟩] ⟨0, 0, -1⟩ [] (by decide) (by decide),
    h.2.2.2.2 [⟨0, 3, 0⟩, ⟨1, 1, 1⟩] 0 1 (by decide) (by decide) (by decide)⟩

/-- C4: in every reachable state the sum of pending counts over the pool
equals the number of dispatch events processed minus the number of
completion events processed. -/
theorem c4_pending_sum_counts : ∀ (p : Pool) (d c : Nat), ReachN p d c →
    psum p = (d : Int) - (c : Int) :=
  fun _ _ _ h => (reachN_inv h).2.2.2

theorem c4_witness : psum initPool = ((0 : Nat) : Int) - ((0 : Nat) : Int) :=
  c4_pending_sum_counts initPool 0 0 ReachN.init

/-- C5: along every event sequence in which each completion event refers
to a worker with at least one dispatched-but-uncompleted task (positive
pending count), no worker's pending count is ever negative, even though
the completion handler decrements unconditionally. -/
theorem c5_pending_nonneg : ∀ p : Pool, ReachV p →
    ∀ k, k < p.length → 0 ≤ (pget p k).pending := by
  intro p h k hk
  exact (reachV_inv h).2.2.2 (pget p k) (pget_mem hk)

theorem c5_witness : 0 ≤ (pget initPool 0).pending :=
  c5_pending_nonneg initPool ReachV.init 0 (by decide)

/-- C6: from a pool of N workers all with pending count 0 (satisfying
the structural invariants), dispatching N tasks sequentially succeeds;
after m ≤ N dispatches the multiset of pending counts is m ones and
N - m zeros (so no worker receives a second task before all have
received one), and after N dispatches every worker has pending count
exactly 1. -/
theorem c6_fair_spread : ∀ (N : Nat) (p0 : Pool), 0 < N → p0.length = N →
    heapProp p0 → idxOk p0 → (∀ w ∈ p0, w.pending = 0) →
    (∀ m, m ≤ N → ∃ q, iterDispatch m p0 = some q ∧
      pkeys q = Multiset.replicate m 1 + Multiset.replicate (N - m) 0) ∧
    (∃ q, iterDispatch N p0 = some q ∧ q.length = N ∧
      ∀ k, k < q.length → (pget q k).pending = 1) := by
  intro N p0 hN hlen hh hix hz
  constructor
  · intro m hm
    obtain ⟨q, h1, _, _, _, h5⟩ := c6_aux m N p0 hlen hh hix hz hm
    exact ⟨q, h1, h5⟩
  · obtain ⟨q, h1, h2, _, _, h5⟩ := c6_aux N N p0 hlen hh hix hz (le_refl N)
    refine ⟨q, h1, h2, ?_⟩
    intro k hk
    have hmem := key_mem_pkeys hk
    rw [h5, show N - N = 0 by omega] at hmem
    simp only [Multiset.replicate_zero, add_zero] at hmem
    exact Multiset.eq_of_mem_replicate hmem

theorem c6_witness :
    (∀ m, m ≤ 3 → ∃ q,
      iterDispatch m [⟨0, 0, 0⟩, ⟨1, 0, 1⟩, ⟨2, 0, 2⟩] = some q ∧
      pkeys q = Multiset.replicate m 1 + Multiset.replicate (3 - m) 0) ∧
    (∃ q, iterDispatch 3 [⟨0, 0, 0⟩, ⟨1, 0, 1⟩, ⟨2, 0, 2⟩] = some q ∧
      q.length = 3 ∧ ∀ k, k < q.length → (pget q k).pending = 1) :=
  c6_fair_spread 3 [⟨0, 0, 0⟩, ⟨1, 0, 1⟩, ⟨2, 0, 2⟩] (by decide) (by decide)
    (by decide) (by decide) (by decide)

/-- C7: every reachable state has pool length exactly `workerSize`, so
the pop-from-empty-pool panic is unreachable: `dispatch` (whose first
step is `heap.Pop`) always succeeds from a reachable state. -/
theorem c7_no_empty_pop : ∀ p : Pool, Reach p →
    p.length = workerSize ∧ (dispatch p).isSome = true := by
  intro p hp
  obtain ⟨d, c, hr⟩ := hp
  obtain ⟨_, _, hlen, _⟩ := reachN_inv hr
  refine ⟨hlen, ?_⟩
  obtain ⟨w, r, hd⟩ := dispatch_total (p := p) (by rw [hlen]; decide)
  rw [hd]
  rfl

theorem c7_witness : initPool.length = workerSize ∧
    (dispatch initPool).isSome = true :=
  c7_no_empty_pop initPool ⟨0, 0, ReachN.init⟩

/-- C8 counterexample: a completion event referencing the worker at
position 0 of a two-worker pool whose recorded heap position is 1 — in
range but pointing at a different worker — is processed without any
panic: the handler returns normally, with the referenced worker now in
the pool twice and the worker that was stored at the stale position
dropped from the roster. -/
theorem c8_counterexample :
    pget ([⟨0, 1, 1⟩, ⟨1, 1, 1⟩] : Pool)
        ((pget ([⟨0, 1, 1⟩, ⟨1, 1, 1⟩] : Pool) 0).idx.toNat) ≠
      pget ([⟨0, 1, 1⟩, ⟨1, 1, 1⟩] : Pool) 0 ∧
    0 ≤ (pget ([⟨0, 1, 1⟩, ⟨1, 1, 1⟩] : Pool) 0).idx ∧
    (pget ([⟨0, 1, 1⟩, ⟨1, 1, 1⟩] : Pool) 0).idx <
      (([⟨0, 1, 1⟩, ⟨1, 1, 1⟩] : Pool).length : Int) ∧
    completed [⟨0, 1, 1⟩, ⟨1, 1, 1⟩] 0 =
      some [⟨0, 0, 1⟩, ⟨0, 0, 1⟩] := by decide

/-- C8 amended: the completion handler halts (panics) exactly when the
referenced worker's recorded heap position is outside [0, pool length);
a recorded position that is in range but holds a different worker is
not detected: the handler proceeds without error, removing and
discarding the worker stored at that position and pushing the
referenced worker again, so that worker ends up in the pool twice. -/
theorem c8_amended_panic_iff : ∀ (p : Pool) (j : Nat), j < p.length →
    (completed p j = none ↔
      ¬ (0 ≤ (pget p j).idx ∧ (pget p j).idx < (p.length : Int))) := by
  intro p j hj
  rw [completed, if_pos hj]
  dsimp only
  have hlen1 : (pset p j ⟨(pget p j).id, (pget p j).pending - 1,
      (pget p j).idx⟩).length = p.length := length_pset ..
  by_cases hc : 0 ≤ (pget p j).idx ∧ (pget p j).idx < (p.length : Int)
  · have hsome : ∃ y, heapRemove (pset p j ⟨(pget p j).id,
        (pget p j).pending - 1, (pget p j).idx⟩) (pget p j).idx = some y := by
      rw [heapRemove, if_pos (by rw [hlen1]; exact hc)]
      dsimp only
      split
      · exact ⟨_, rfl⟩
      · exact ⟨_, rfl⟩
    obtain ⟨y, hy⟩ := hsome
    obtain ⟨x, p2⟩ := y
    rw [hy]
    simp [hc]
  · have hnone : heapRemove (pset p j ⟨(pget p j).id,
        (pget p j).pending - 1, (pget p j).idx⟩) (pget p j).idx = none := by
      rw [heapRemove, if_neg (by rw [hlen1]; exact hc)]
    rw [hnone]
    simp [hc]

theorem c8_amended_witness :
    completed [⟨0, 0, 5⟩] 0 = none ↔
      ¬ (0 ≤ (pget ([⟨0, 0, 5⟩] : Pool) 0).idx ∧
        (pget ([⟨0, 0, 5⟩] : Pool) 0).idx <
          ((([⟨0, 0, 5⟩] : Pool)).length : Int)) :=
  c8_amended_panic_iff [⟨0, 0, 5⟩] 0 (by decide)

/-- C10: after initialization the pool holds exactly `workerSize`
workers, each with pending count 0 and with its position field equal to
its index, and the pool is a valid min-heap. -/
theorem c10_initial_state :
    initPool.length = workerSize ∧
    (∀ k, k < initPool.length → (pget initPool k).pending = 0 ∧
      (pget initPool k).idx = (k : Int)) ∧
    heapProp initPool := by decide
